import Mathlib

/-
Verification of the TGUI TextBox text-layout and selection engine and of the
Slider widget defaults.

The repository ships only the headers `include/TGUI/TextBox.hpp` and
`include/TGUI/Widgets/Slider.hpp`; the bodies of the private TextBox methods
`rearrangeText`, `findCaretPosition`, `findTextCaretPosition` and
`updateSelectionTexts` (declared at TextBox.hpp:341-373) live in a .cpp file
that is not part of the sources.  Those operations are therefore modelled
from the specification (spec.md sections 4.1-4.3): each such definition
carries a doc comment starting with `Modelled from the spec:`.

The text buffer is a `List Char`; pixel measurement is an arbitrary per-glyph
advance function `m : Char → Nat`; a wrapping width of `0` encodes the
"width ≤ 0 is treated as unconstrained" rule of the spec (widths are natural
numbers of pixels).
-/

namespace TGUI

/-- A display line of the wrapped text.  `content` holds the visible glyphs of
the line (break characters are consumed and not stored as visible glyphs, per
spec section 4.2).  `hardBreak` is `true` exactly when the line was terminated
by an explicit newline codepoint of the buffer; a line with `hardBreak = false`
ends either in an inserted soft-break marker or at the end of the buffer. -/
structure Line where
  content : List Char
  hardBreak : Bool
deriving DecidableEq

/-- The line used when an index falls outside the LineTable (defensive
clamping; the table produced by the wrapper is never empty). -/
def blankLine : Line := ⟨[], false⟩

/-- A logical caret position: (lineIndex, columnIndex) into the LineTable. -/
structure CaretPos where
  lineIndex : Nat
  columnIndex : Nat
deriving DecidableEq

/-- Validity of a caret position for a LineTable, as stated in spec section 3:
`0 ≤ lineIndex < lineCount` and `0 ≤ columnIndex ≤ line length`. -/
def ValidPos (tbl : List Line) (p : CaretPos) : Prop :=
  p.lineIndex < tbl.length ∧
    p.columnIndex ≤ (tbl.getD p.lineIndex blankLine).content.length

/-- Summed pixel advance of a sequence of glyphs under advance function `m`. -/
def measureLine (m : Char → Nat) (l : List Char) : Nat :=
  (l.map m).sum

/-- Modelled from the spec: paragraph splitting used by the missing
`TextBox::rearrangeText` body.  Splits the buffer at explicit newline
codepoints, which "always force a line break regardless of width"
(spec section 4.1); the newline itself is consumed.  The result is never
empty: an empty buffer yields one empty paragraph. -/
def splitHard : List Char → List (List Char)
  | [] => [[]]
  | c :: rest =>
    if c = '\n' then [] :: splitHard rest
    else
      match splitHard rest with
      | [] => [[c]]
      | p :: ps => (c :: p) :: ps

/-- Inverse of `splitHard`: rejoin paragraphs with explicit newlines. -/
def joinHard : List (List Char) → List Char
  | [] => []
  | [p] => p
  | p :: ps => p ++ '\n' :: joinHard ps

/-- Modelled from the spec: tokenisation into "whitespace-delimited word
boundaries" (spec section 4.1) for the missing `TextBox::rearrangeText` body.
A token is a maximal run of non-space glyphs together with the run of spaces
that follows it (scenario 2 of the spec keeps the trailing space on the line:
"Hello world" wraps to ["Hello ", "world"]).  `inSp` records whether the token
being accumulated (in reverse, in `cur`) has already entered its trailing
space run. -/
def tokenizeAux : List Char → Bool → List Char → List (List Char)
  | [], _, cur => if cur = [] then [] else [cur.reverse]
  | c :: rest, inSp, cur =>
    if c = ' ' then tokenizeAux rest true (c :: cur)
    else if inSp then cur.reverse :: tokenizeAux rest false [c]
    else tokenizeAux rest false (c :: cur)

/-- Tokenise a paragraph into word-plus-trailing-space chunks. -/
def tokenize (s : List Char) : List (List Char) :=
  tokenizeAux s false []

/-- Wrapping state: the display lines already closed, and the line being
accumulated. -/
structure WrapSt where
  closed : List (List Char)
  cur : List Char
deriving DecidableEq

/-- Modelled from the spec: the character-by-character greedy fill used when
"a single word alone exceeds `width`" — the word is hard-broken rather than
allowed to overflow (spec section 4.1).  A glyph is appended to the current
line when it fits (or when the line is empty, since a single glyph wider than
the wrapping width cannot be broken further); otherwise the line is closed and
a new line starts with that glyph. -/
def hardBreakStep (width : Nat) (m : Char → Nat) (st : WrapSt) (c : Char) : WrapSt :=
  if measureLine m st.cur + m c ≤ width ∨ st.cur = [] then
    ⟨st.closed, st.cur ++ [c]⟩
  else
    ⟨st.closed ++ [st.cur], [c]⟩

/-- Modelled from the spec: processing of one whitespace-delimited token by the
missing `TextBox::rearrangeText` body.  "On each whitespace-delimited word
boundary, test whether appending the next word exceeds `width`; if so, close
the current line and start a new one; if a single word alone exceeds `width`,
hard-break it character-by-character (greedy fill)"; `width = 0` encodes the
unconstrained case "width ≤ 0" in which no wrapping happens (spec
section 4.1). -/
def wrapToken (width : Nat) (m : Char → Nat) (st : WrapSt) (t : List Char) : WrapSt :=
  if width = 0 then ⟨st.closed, st.cur ++ t⟩
  else if measureLine m st.cur + measureLine m t ≤ width then ⟨st.closed, st.cur ++ t⟩
  else if measureLine m t ≤ width then ⟨st.closed ++ [st.cur], t⟩
  else t.foldl (hardBreakStep width m) st

/-- Modelled from the spec: wrap a single paragraph (no newline codepoints)
into display lines.  An empty paragraph yields exactly one empty line (spec
section 4.1 edge case). -/
def wrapPara (width : Nat) (m : Char → Nat) (p : List Char) : List (List Char) :=
  let st := (tokenize p).foldl (wrapToken width m) ⟨[], []⟩
  st.closed ++ [st.cur]

/-- Mark the lines coming from one paragraph: every line but the last ends in
an inserted soft break; the last ends in the paragraph's explicit newline
(`hard = true`) or at the end of the buffer (`hard = false`). -/
def markLines : List (List Char) → Bool → List Line
  | [], _ => []
  | [l], hard => [⟨l, hard⟩]
  | l :: ls, hard => ⟨l, false⟩ :: markLines ls hard

/-- Join the per-paragraph line groups into one LineTable; every paragraph but
the last was terminated by an explicit newline. -/
def joinGroups : List (List (List Char)) → List Line
  | [] => []
  | [g] => markLines g false
  | g :: gs => markLines g true ++ joinGroups gs

/-- Modelled from the spec: the line wrapper `TextBox::rearrangeText`
(declared at TextBox.hpp:364-367, body not in the sources), i.e. the contract
`wrap(buffer, width, measure) -> LineTable` of spec section 4.1. -/
def rearrangeText (width : Nat) (m : Char → Nat) (buffer : List Char) : List Line :=
  joinGroups ((splitHard buffer).map (wrapPara width m))

/-- Concatenation of all lines of a LineTable ignoring inserted soft-break
markers: the explicit newline consumed at a hard break is part of the buffer
and is restored; a soft break contributes nothing. -/
def reconstruct (tbl : List Line) : List Char :=
  (tbl.map (fun l => l.content ++ if l.hardBreak then ['\n'] else [])).flatten

/-- Modelled from the spec: the clamp `lineIndex = clamp(floor(y / lineHeight),
0, lineCount-1)` of spec section 4.2 (silent clamping of all positional math,
spec section 7). -/
def clampLineIndex (q : Int) (count : Nat) : Nat :=
  if q < 0 then 0
  else if (count : Int) ≤ q then count - 1
  else q.toNat

/-- Modelled from the spec: the column scan of spec section 4.2 — "walk
characters accumulating pixel width ..., selecting the column where
`accumulated width` first exceeds `x - width/2` of the next character
(nearest-boundary snapping, not floor), clamped to line length".  `acc` is the
accumulated width of the glyphs already passed. -/
def findColumnAux (m : Char → Nat) (x : Int) (acc : Int) : List Char → Nat
  | [] => 0
  | c :: rest =>
    if x ≤ acc + (m c : Int) / 2 then 0
    else findColumnAux m x (acc + (m c : Int)) rest + 1

/-- Column within a line nearest to pixel abscissa `x`. -/
def findColumn (m : Char → Nat) (x : Int) (line : List Char) : Nat :=
  findColumnAux m x 0 line

/-- Modelled from the spec: the caret locator `TextBox::findCaretPosition`
(declared at TextBox.hpp:338-341, body not in the sources), i.e. the contract
`locate(point, table, lineHeight) -> CaretPosition` of spec section 4.2.  All
positional math is clamped; the function is total, which embodies the "never
throws" propagation policy of spec section 7. -/
def findCaretPosition (m : Char → Nat) (lineHeight : Nat) (tbl : List Line)
    (x y : Int) : CaretPos :=
  let li := clampLineIndex (Int.fdiv y (lineHeight : Int)) tbl.length
  ⟨li, findColumn m x (tbl.getD li blankLine).content⟩

/-- Number of buffer codepoints covered by a display line: its visible glyphs
plus the consumed explicit newline when the line ends in a hard break. -/
def lineStep (l : Line) : Nat :=
  l.content.length + if l.hardBreak then 1 else 0

/-- Modelled from the spec: `TextBox::findTextCaretPosition` (declared at
TextBox.hpp:344-347, body not in the sources) converts a two-dimensional caret
position into a one-dimensional buffer offset "by summing the lengths of all
preceding lines (accounting for consumed whitespace/break characters that are
not stored as visible glyphs)" (spec section 4.2). -/
def findTextCaretPosition (tbl : List Line) (p : CaretPos) : Nat :=
  ((tbl.take p.lineIndex).map lineStep).sum + p.columnIndex

/-- Modelled from the spec: the inverse conversion of a one-dimensional buffer
offset "back into (line, column) given the same LineTable" (spec section 8
round-trip property).  The scan stops at the first line whose visible glyphs
cover the remaining offset, clamping at the final line. -/
def caretFromOffset : List Line → Nat → CaretPos
  | [], off => ⟨0, off⟩
  | l :: rest, off =>
    if off ≤ l.content.length ∨ rest = [] then ⟨0, min off l.content.length⟩
    else
      let p := caretFromOffset rest (off - lineStep l)
      ⟨p.lineIndex + 1, p.columnIndex⟩

/-- Document order on caret positions: lineIndex first, then columnIndex
(spec section 4.3). -/
abbrev docLe (a b : CaretPos) : Prop :=
  a.lineIndex < b.lineIndex ∨
    (a.lineIndex = b.lineIndex ∧ a.columnIndex ≤ b.columnIndex)

/-- The earlier of two caret positions in document order. -/
def selMinOf (a b : CaretPos) : CaretPos :=
  if docLe a b then a else b

/-- The later of two caret positions in document order. -/
def selMaxOf (a b : CaretPos) : CaretPos :=
  if docLe a b then b else a

/-- The five render segments of spec section 4.3 ("split text into five
pieces", TextBox.hpp:371), named after the `sf::Text` members
`m_textBeforeSelection`, `m_textSelection1/2`, `m_textAfterSelection1/2`
declared at TextBox.hpp:430-434. -/
structure RenderSegments where
  textBeforeSelection : List Char
  textSelection1 : List Char
  textSelection2 : List Char
  textAfterSelection1 : List Char
  textAfterSelection2 : List Char
deriving DecidableEq

/-- Visible glyphs of line `i` of a LineTable (empty when out of range). -/
def lineContentAt (tbl : List Line) (i : Nat) : List Char :=
  (tbl.getD i blankLine).content

/-- Modelled from the spec: derivation of the five segments from an already
normalised pair `selMin ≤ selMax` (spec section 4.3).  The boundary of the
before/after segments follows the invariant that spec section 9 directs
implementers to use: the five segments' concatenation in line order must
reconstruct the full wrapped text with no gaps or overlaps; hence
`textBeforeSelection` covers all full lines above the selection plus the
unselected prefix of the first selected line, and `textAfterSelection2` all
full lines below it. -/
def segmentsOf (tbl : List Line) (selMin selMax : CaretPos) : RenderSegments :=
  let i := selMin.lineIndex
  let j := selMax.lineIndex
  let before :=
    ((tbl.take i).map Line.content).flatten ++
      (lineContentAt tbl i).take selMin.columnIndex
  let after2 := ((tbl.drop (j + 1)).map Line.content).flatten
  if i = j then
    ⟨before,
      ((lineContentAt tbl i).take selMax.columnIndex).drop selMin.columnIndex,
      [],
      (lineContentAt tbl j).drop selMax.columnIndex,
      after2⟩
  else
    ⟨before,
      (lineContentAt tbl i).drop selMin.columnIndex,
      (((tbl.take j).drop (i + 1)).map Line.content).flatten ++
        (lineContentAt tbl j).take selMax.columnIndex,
      (lineContentAt tbl j).drop selMax.columnIndex,
      after2⟩

/-- Modelled from the spec: the selection resolver
`TextBox::updateSelectionTexts` (declared at TextBox.hpp:370-373, body not in
the sources), i.e. the contract `resolve(anchor, caret, table) ->
RenderSegments` of spec section 4.3.  It first normalises the endpoint pair
into `selMin ≤ selMax` in document order. -/
def updateSelectionTexts (tbl : List Line) (selStart selEnd : CaretPos) :
    RenderSegments :=
  segmentsOf tbl (selMinOf selStart selEnd) (selMaxOf selStart selEnd)

/-- Concatenation of the five render segments in line order. -/
def segmentsConcat (s : RenderSegments) : List Char :=
  s.textBeforeSelection ++ s.textSelection1 ++ s.textSelection2 ++
    s.textAfterSelection1 ++ s.textAfterSelection2

/-- The full wrapped text: visible glyphs of all lines of the LineTable. -/
def fullWrappedText (tbl : List Line) : List Char :=
  (tbl.map Line.content).flatten

/-- The Slider state relevant to the value accessors (Slider.hpp:301-303). -/
structure Slider where
  m_minimum : Int
  m_maximum : Int
  m_value : Int
deriving DecidableEq

/-- Modelled from the spec: a default-constructed Slider.  The constructor
body (`Slider::Slider()` declared at Slider.hpp:60, body not in the sources)
is modelled as leaving the value range untouched, so the fields take the
in-class member initialisers of Slider.hpp:301-303, which agree with the
documented defaults of `setMinimum`/`setMaximum`/`setValue`
(Slider.hpp:130,143,155). -/
def defaultSlider : Slider := ⟨0, 10, 0⟩

/-- Accessor `Slider::getMinimum` (Slider.hpp:169-172). -/
def Slider.getMinimum (s : Slider) : Int := s.m_minimum

/-- Accessor `Slider::getMaximum` (Slider.hpp:183-186). -/
def Slider.getMaximum (s : Slider) : Int := s.m_maximum

/-- Accessor `Slider::getValue` (Slider.hpp:197-200). -/
def Slider.getValue (s : Slider) : Int := s.m_value

/-- Uniform font advance of one pixel per glyph, used by concrete scenarios. -/
def unitAdvance : Char → Nat := fun _ => 1

/-! ### Basic lemmas about the caret locator -/

theorem findColumnAux_le (m : Char → Nat) (x : Int) :
    ∀ (line : List Char) (acc : Int), findColumnAux m x acc line ≤ line.length := by
  intro line
  induction line with
  | nil => intro acc; simp [findColumnAux]
  | cons c rest ih =>
    intro acc
    simp only [findColumnAux, List.length_cons]
    split
    · exact Nat.zero_le _
    · exact Nat.succ_le_succ (ih _)

theorem clampLineIndex_lt (q : Int) (count : Nat) (h : 0 < count) :
    clampLineIndex q count < count := by
  unfold clampLineIndex
  split
  · exact h
  · split
    · omega
    · omega

/-- The caret locator always yields a position inside the bounds of a nonempty
LineTable. -/
theorem findCaretPosition_valid (m : Char → Nat) (lineHeight : Nat)
    (tbl : List Line) (x y : Int) (h : tbl ≠ []) :
    ValidPos tbl (findCaretPosition m lineHeight tbl x y) := by
  unfold ValidPos findCaretPosition findColumn
  exact ⟨clampLineIndex_lt _ _ (List.length_pos.mpr h), findColumnAux_le _ _ _ _⟩

/-! ### Basic lemmas about document order and endpoint normalisation -/

theorem docLe_total (a b : CaretPos) : docLe a b ∨ docLe b a := by
  unfold docLe
  omega

theorem docLe_antisymm (a b : CaretPos) (h1 : docLe a b) (h2 : docLe b a) : a = b := by
  have hl : a.lineIndex = b.lineIndex := by unfold docLe at h1 h2; omega
  have hc : a.columnIndex = b.columnIndex := by unfold docLe at h1 h2; omega
  cases a
  cases b
  simp_all

theorem selMinOf_comm (a b : CaretPos) : selMinOf a b = selMinOf b a := by
  unfold selMinOf
  by_cases h1 : docLe a b <;> by_cases h2 : docLe b a <;> simp [h1, h2]
  · exact docLe_antisymm a b h1 h2
  · rcases docLe_total a b with h | h
    · exact absurd h h1
    · exact absurd h h2

theorem selMaxOf_comm (a b : CaretPos) : selMaxOf a b = selMaxOf b a := by
  unfold selMaxOf
  by_cases h1 : docLe a b <;> by_cases h2 : docLe b a <;> simp [h1, h2]
  · exact docLe_antisymm b a h2 h1
  · rcases docLe_total a b with h | h
    · exact absurd h h1
    · exact absurd h h2

theorem docLe_selMinOf_selMaxOf (a b : CaretPos) :
    docLe (selMinOf a b) (selMaxOf a b) := by
  unfold selMinOf selMaxOf
  by_cases h : docLe a b <;> simp [h]
  rcases docLe_total a b with h1 | h1
  · exact absurd h1 h
  · exact h1

/-! ### Claim theorems: Slider defaults, concrete wrap scenario, empty buffer,
locator safety, selection symmetry -/

/-- C10: for a default-constructed Slider, `getMinimum()` returns 0,
`getMaximum()` returns 10 and `getValue()` returns 0. -/
theorem claim_C10 :
    defaultSlider.getMinimum = 0 ∧ defaultSlider.getMaximum = 10 ∧
      defaultSlider.getValue = 0 :=
  ⟨rfl, rfl, rfl⟩

/-- C5: the buffer "Hello world" at wrapping width 7 with a uniform advance of
one pixel per glyph wraps into exactly the two lines "Hello " (trailing space
kept) and "world", neither ending in a hard break. -/
theorem claim_C5 :
    rearrangeText 7 unitAdvance "Hello world".toList =
      [⟨"Hello ".toList, false⟩, ⟨"world".toList, false⟩] := by
  decide

/-- C4: wrapping the empty buffer yields exactly one empty line (for every
width and measurement function), and on that table the caret locator returns
CaretPosition (0, 0) for every input point. -/
theorem claim_C4 (width : Nat) (m : Char → Nat) (lineHeight : Nat) (x y : Int) :
    rearrangeText width m [] = [blankLine] ∧
      findCaretPosition m lineHeight [blankLine] x y = ⟨0, 0⟩ := by
  refine ⟨rfl, ?_⟩
  have hli : clampLineIndex (Int.fdiv y (lineHeight : Int))
      ([blankLine] : List Line).length = 0 := by
    simp only [List.length_singleton]
    unfold clampLineIndex
    split
    · rfl
    · split
      · rfl
      · omega
  simp only [findCaretPosition, hli]
  rfl

/-- C3: for every pixel coordinate, including negative or out-of-bounds ones,
the caret locator returns a CaretPosition valid for the (nonempty) LineTable:
the line index is below the line count and the column is at most the line's
length.  The locator and the rest of the embedded core are total functions
that clamp all positional math, mirroring the never-throws policy. -/
theorem claim_C3 (m : Char → Nat) (lineHeight : Nat) (tbl : List Line)
    (x y : Int) (h : tbl ≠ []) :
    ValidPos tbl (findCaretPosition m lineHeight tbl x y) :=
  findCaretPosition_valid m lineHeight tbl x y h

/-- Witness for C3 at a concrete table and an out-of-bounds negative point. -/
theorem claim_C3_witness :
    ([⟨"Hello world".toList, false⟩] : List Line) ≠ [] ∧
      ValidPos [⟨"Hello world".toList, false⟩]
        (findCaretPosition unitAdvance 20 [⟨"Hello world".toList, false⟩] (-7) (-3)) :=
  ⟨by decide, claim_C3 unitAdvance 20 _ (-7) (-3) (by decide)⟩

/-- C7: the selection resolver gives the same five segments when anchor and
caret are swapped, for every LineTable and every pair of valid positions,
because it first normalises the pair in document order. -/
theorem claim_C7 (tbl : List Line) (a b : CaretPos)
    (ha : ValidPos tbl a) (hb : ValidPos tbl b) :
    updateSelectionTexts tbl a b = updateSelectionTexts tbl b a := by
  unfold updateSelectionTexts
  rw [selMinOf_comm, selMaxOf_comm]

/-- Witness for C7 on a concrete two-line table and concrete endpoints. -/
theorem claim_C7_witness :
    updateSelectionTexts [⟨"Hello ".toList, false⟩, ⟨"world".toList, false⟩]
        ⟨1, 2⟩ ⟨0, 3⟩ =
      updateSelectionTexts [⟨"Hello ".toList, false⟩, ⟨"world".toList, false⟩]
        ⟨0, 3⟩ ⟨1, 2⟩ :=
  claim_C7 _ ⟨1, 2⟩ ⟨0, 3⟩ ⟨by decide, by decide⟩ ⟨by decide, by decide⟩

/-- C8: with anchor (0,0) and caret (0,5) on the single wrapped line
"Hello world", segment A (text before the selection) is empty, segment B (the
selected text) is "Hello" and segment D (trailing unselected text) is
" world"; moreover for every same-line selection segment C is empty. -/
theorem claim_C8 :
    ((updateSelectionTexts [⟨"Hello world".toList, false⟩] ⟨0, 0⟩ ⟨0, 5⟩).textBeforeSelection = [] ∧
      (updateSelectionTexts [⟨"Hello world".toList, false⟩] ⟨0, 0⟩ ⟨0, 5⟩).textSelection1 =
        "Hello".toList ∧
      (updateSelectionTexts [⟨"Hello world".toList, false⟩] ⟨0, 0⟩ ⟨0, 5⟩).textAfterSelection1 =
        " world".toList) ∧
    ∀ (tbl : List Line) (a b : CaretPos), a.lineIndex = b.lineIndex →
      (updateSelectionTexts tbl a b).textSelection2 = [] := by
  refine ⟨⟨by decide, by decide, by decide⟩, ?_⟩
  intro tbl a b hab
  have hmin : (selMinOf a b).lineIndex = (selMaxOf a b).lineIndex := by
    unfold selMinOf selMaxOf
    split <;> simp [hab]
  simp [updateSelectionTexts, segmentsOf, hmin]

/-- Witness for the quantified part of C8, instantiated at the scenario
selection itself. -/
theorem claim_C8_witness :
    (updateSelectionTexts [⟨"Hello world".toList, false⟩] ⟨0, 0⟩ ⟨0, 5⟩).textSelection2 = [] :=
  claim_C8.2 [⟨"Hello world".toList, false⟩] ⟨0, 0⟩ ⟨0, 5⟩ rfl

/-! ### Lemmas about the line wrapper: reconstruction (C1) -/

theorem measureLine_append (m : Char → Nat) (a b : List Char) :
    measureLine m (a ++ b) = measureLine m a + measureLine m b := by
  simp [measureLine]

/-- Concatenating the tokens of `tokenizeAux` recovers the pending
accumulator followed by the remaining input. -/
theorem tokenizeAux_flatten :
    ∀ (s : List Char) (inSp : Bool) (cur : List Char),
      (tokenizeAux s inSp cur).flatten = cur.reverse ++ s := by
  intro s
  induction s with
  | nil =>
    intro inSp cur
    simp only [tokenizeAux]
    split
    · simp_all
    · simp
  | cons c rest ih =>
    intro inSp cur
    simp only [tokenizeAux]
    split
    · rw [ih]
      simp
    · split
      · simp only [List.flatten_cons, ih]
        simp
      · rw [ih]
        simp

theorem tokenize_flatten (s : List Char) : (tokenize s).flatten = s := by
  simpa using tokenizeAux_flatten s false []

/-- Buffer glyphs carried by a wrapping state: closed lines then current. -/
def wrapFlat (st : WrapSt) : List Char :=
  st.closed.flatten ++ st.cur

theorem hardBreakStep_flat (width : Nat) (m : Char → Nat) (st : WrapSt) (c : Char) :
    wrapFlat (hardBreakStep width m st c) = wrapFlat st ++ [c] := by
  unfold hardBreakStep wrapFlat
  split <;> simp

theorem foldl_hardBreakStep_flat (width : Nat) (m : Char → Nat) :
    ∀ (t : List Char) (st : WrapSt),
      wrapFlat (t.foldl (hardBreakStep width m) st) = wrapFlat st ++ t := by
  intro t
  induction t with
  | nil => intro st; simp
  | cons c cs ih =>
    intro st
    simp only [List.foldl_cons]
    rw [ih, hardBreakStep_flat]
    simp

theorem wrapToken_flat (width : Nat) (m : Char → Nat) (st : WrapSt) (t : List Char) :
    wrapFlat (wrapToken width m st t) = wrapFlat st ++ t := by
  unfold wrapToken
  split
  · simp [wrapFlat]
  · split
    · simp [wrapFlat]
    · split
      · simp [wrapFlat]
      · exact foldl_hardBreakStep_flat width m t st

theorem foldl_wrapToken_flat (width : Nat) (m : Char → Nat) :
    ∀ (ts : List (List Char)) (st : WrapSt),
      wrapFlat (ts.foldl (wrapToken width m) st) = wrapFlat st ++ ts.flatten := by
  intro ts
  induction ts with
  | nil => intro st; simp
  | cons t ts' ih =>
    intro st
    simp only [List.foldl_cons, List.flatten_cons]
    rw [ih, wrapToken_flat]
    simp

/-- The lines produced for a paragraph concatenate back to the paragraph. -/
theorem wrapPara_flatten (width : Nat) (m : Char → Nat) (p : List Char) :
    (wrapPara width m p).flatten = p := by
  unfold wrapPara
  rw [List.flatten_append]
  have h := foldl_wrapToken_flat width m (tokenize p) ⟨[], []⟩
  unfold wrapFlat at h
  simp only [List.flatten_nil, List.nil_append] at h
  simpa [tokenize_flatten] using h

theorem wrapPara_ne_nil (width : Nat) (m : Char → Nat) (p : List Char) :
    wrapPara width m p ≠ [] := by
  simp [wrapPara]

theorem reconstruct_cons (l : Line) (ls : List Line) :
    reconstruct (l :: ls) =
      (l.content ++ if l.hardBreak then ['\n'] else []) ++ reconstruct ls := by
  simp [reconstruct]

theorem reconstruct_append (a b : List Line) :
    reconstruct (a ++ b) = reconstruct a ++ reconstruct b := by
  simp [reconstruct]

/-- Reconstructing the marked lines of one nonempty paragraph group yields the
group's glyphs followed by its terminating hard newline, if any. -/
theorem markLines_reconstruct :
    ∀ (g : List (List Char)) (hard : Bool), g ≠ [] →
      reconstruct (markLines g hard) =
        g.flatten ++ if hard then ['\n'] else [] := by
  intro g
  induction g with
  | nil => intro hard h; exact absurd rfl h
  | cons x xs ih =>
    intro hard h
    cases xs with
    | nil => simp [markLines, reconstruct]
    | cons y ys =>
      simp only [markLines, reconstruct_cons, List.flatten_cons]
      rw [ih hard (by simp)]
      simp [List.append_assoc]

theorem splitHard_ne_nil (s : List Char) : splitHard s ≠ [] := by
  cases s with
  | nil => simp [splitHard]
  | cons c rest =>
    simp only [splitHard]
    split
    · simp
    · cases h : splitHard rest <;> simp

/-- Reconstruction across paragraph groups: the groups' glyphs rejoined with
the explicit newlines that separated the paragraphs. -/
theorem joinGroups_reconstruct :
    ∀ (gs : List (List (List Char))), (∀ g ∈ gs, g ≠ []) →
      reconstruct (joinGroups gs) = joinHard (gs.map List.flatten) := by
  intro gs
  induction gs with
  | nil => intro h; simp [joinGroups, reconstruct, joinHard]
  | cons g gs' ih =>
    intro h
    cases gs' with
    | nil =>
      simp only [joinGroups, List.map_cons, List.map_nil, joinHard]
      rw [markLines_reconstruct g false (h g (by simp))]
      simp
    | cons g2 gs'' =>
      simp only [joinGroups, List.map_cons, joinHard, reconstruct_append]
      rw [markLines_reconstruct g true (h g (by simp))]
      have ih2 := ih (fun x hx => h x (by simp [hx]))
      simp only [joinGroups, List.map_cons, joinHard] at ih2
      rw [ih2]
      simp

theorem joinHard_splitHard : ∀ (s : List Char), joinHard (splitHard s) = s := by
  intro s
  induction s with
  | nil => rfl
  | cons c rest ih =>
    simp only [splitHard]
    split
    · rename_i hc
      obtain ⟨p, ps, hps⟩ := List.exists_cons_of_ne_nil (splitHard_ne_nil rest)
      rw [hps]
      rw [hps] at ih
      simp only [joinHard, List.nil_append]
      rw [ih, hc]
    · obtain ⟨p, ps, hps⟩ := List.exists_cons_of_ne_nil (splitHard_ne_nil rest)
      rw [hps]
      rw [hps] at ih
      cases ps with
      | nil => simp only [joinHard] at ih ⊢; rw [ih]
      | cons q ps' =>
        simp only [joinHard] at ih ⊢
        rw [← ih]
        simp

/-- C1: for every buffer and every positive wrapping width, concatenating the
lines of the produced LineTable — restoring the consumed explicit newlines of
hard breaks and ignoring the inserted soft-break markers — reconstructs the
buffer exactly. -/
theorem claim_C1 (buffer : List Char) (width : Nat) (m : Char → Nat)
    (h : 0 < width) :
    reconstruct (rearrangeText width m buffer) = buffer := by
  unfold rearrangeText
  rw [joinGroups_reconstruct]
  · rw [List.map_map]
    have : ((splitHard buffer).map (List.flatten ∘ wrapPara width m)) =
        (splitHard buffer).map id := by
      apply List.map_congr_left
      intro p hp
      simp [wrapPara_flatten]
    rw [this, List.map_id, joinHard_splitHard]
  · intro g hg
    obtain ⟨p, hp, rfl⟩ := List.mem_map.mp hg
    exact wrapPara_ne_nil width m p

/-- Witness for C1 at the scenario buffer, width 7, unit advance. -/
theorem claim_C1_witness :
    0 < 7 ∧
      reconstruct (rearrangeText 7 unitAdvance "Hello world".toList) =
        "Hello world".toList :=
  ⟨by decide, claim_C1 "Hello world".toList 7 unitAdvance (by decide)⟩

/-! ### Lemmas about the line wrapper: width bound (C2) -/

/-- A line either fits in the wrapping width or is a single glyph — the only
unbreakable unit after character-by-character hard-breaking. -/
def fitsOrSingle (width : Nat) (m : Char → Nat) (l : List Char) : Prop :=
  measureLine m l ≤ width ∨ l.length = 1

/-- The wrapping-state invariant: all closed lines and the current line fit or
are single glyphs. -/
def wrapInv (width : Nat) (m : Char → Nat) (st : WrapSt) : Prop :=
  (∀ l ∈ st.closed, fitsOrSingle width m l) ∧ fitsOrSingle width m st.cur

theorem hardBreakStep_inv (width : Nat) (m : Char → Nat) (st : WrapSt) (c : Char)
    (h : wrapInv width m st) : wrapInv width m (hardBreakStep width m st c) := by
  obtain ⟨hc, hcur⟩ := h
  unfold hardBreakStep
  split
  · rename_i hcond
    rcases hcond with hfit | hnil
    · exact ⟨hc, Or.inl (by rw [measureLine_append]; simpa [measureLine] using hfit)⟩
    · refine ⟨hc, Or.inr ?_⟩
      rw [hnil]
      rfl
  · refine ⟨?_, Or.inr rfl⟩
    intro l hl
    rcases List.mem_append.mp hl with h1 | h1
    · exact hc l h1
    · rw [List.mem_singleton.mp h1]
      exact hcur

theorem foldl_hardBreakStep_inv (width : Nat) (m : Char → Nat) :
    ∀ (t : List Char) (st : WrapSt), wrapInv width m st →
      wrapInv width m (t.foldl (hardBreakStep width m) st) := by
  intro t
  induction t with
  | nil => intro st h; exact h
  | cons c cs ih =>
    intro st h
    exact ih _ (hardBreakStep_inv width m st c h)

theorem wrapToken_inv (width : Nat) (m : Char → Nat) (st : WrapSt)
    (t : List Char) (hw : width ≠ 0) (h : wrapInv width m st) :
    wrapInv width m (wrapToken width m st t) := by
  obtain ⟨hc, hcur⟩ := h
  unfold wrapToken
  split
  · exact absurd (by assumption) hw
  · split
    · rename_i hfit
      exact ⟨hc, Or.inl (by rw [measureLine_append]; exact hfit)⟩
    · split
      · rename_i htfit
        refine ⟨?_, Or.inl htfit⟩
        intro l hl
        rcases List.mem_append.mp hl with h1 | h1
        · exact hc l h1
        · rw [List.mem_singleton.mp h1]
          exact hcur
      · exact foldl_hardBreakStep_inv width m t st ⟨hc, hcur⟩

theorem foldl_wrapToken_inv (width : Nat) (m : Char → Nat) (hw : width ≠ 0) :
    ∀ (ts : List (List Char)) (st : WrapSt), wrapInv width m st →
      wrapInv width m (ts.foldl (wrapToken width m) st) := by
  intro ts
  induction ts with
  | nil => intro st h; exact h
  | cons t ts' ih =>
    intro st h
    exact ih _ (wrapToken_inv width m st t hw h)

/-- Every line produced for a paragraph fits in the width or is one glyph. -/
theorem wrapPara_fits (width : Nat) (m : Char → Nat) (p : List Char)
    (hw : width ≠ 0) : ∀ l ∈ wrapPara width m p, fitsOrSingle width m l := by
  intro l hl
  unfold wrapPara at hl
  have hinv : wrapInv width m ((tokenize p).foldl (wrapToken width m) ⟨[], []⟩) :=
    foldl_wrapToken_inv width m hw (tokenize p) ⟨[], []⟩
      ⟨by intro x hx; simp at hx, Or.inl (Nat.zero_le width)⟩
  rcases List.mem_append.mp hl with h1 | h1
  · exact hinv.1 l h1
  · rw [List.mem_singleton.mp h1]
    exact hinv.2

theorem mem_markLines :
    ∀ (g : List (List Char)) (hard : Bool) (l : Line),
      l ∈ markLines g hard → l.content ∈ g := by
  intro g
  induction g with
  | nil => intro hard l hl; simp [markLines] at hl
  | cons x xs ih =>
    intro hard l hl
    cases xs with
    | nil =>
      simp only [markLines, List.mem_singleton] at hl
      rw [hl]
      simp
    | cons y ys =>
      simp only [markLines, List.mem_cons] at hl
      rcases hl with h1 | h1
      · rw [h1]; simp
      · exact List.mem_cons_of_mem x (ih hard l h1)

theorem mem_joinGroups :
    ∀ (gs : List (List (List Char))) (l : Line),
      l ∈ joinGroups gs → ∃ g ∈ gs, l.content ∈ g := by
  intro gs
  induction gs with
  | nil => intro l hl; simp [joinGroups] at hl
  | cons g gs' ih =>
    intro l hl
    cases gs' with
    | nil =>
      exact ⟨g, by simp, mem_markLines g false l hl⟩
    | cons g2 gs'' =>
      simp only [joinGroups, List.mem_append] at hl
      rcases hl with h1 | h1
      · exact ⟨g, by simp, mem_markLines g true l h1⟩
      · obtain ⟨g', hg', hc⟩ := ih l h1
        exact ⟨g', List.mem_cons_of_mem g hg', hc⟩

/-- C2: for every buffer and every positive wrapping width, every produced
line measures at most the width, except lines consisting of a single
unbreakable glyph whose advance alone exceeds the width. -/
theorem claim_C2 (buffer : List Char) (width : Nat) (m : Char → Nat)
    (h : 0 < width) :
    ∀ l ∈ rearrangeText width m buffer,
      measureLine m l.content ≤ width ∨
        (l.content.length = 1 ∧ width < measureLine m l.content) := by
  intro l hl
  obtain ⟨g, hg, hcg⟩ := mem_joinGroups _ l hl
  obtain ⟨p, hp, rfl⟩ := List.mem_map.mp hg
  rcases wrapPara_fits width m p (Nat.pos_iff_ne_zero.mp h) l.content hcg with hfit | hone
  · exact Or.inl hfit
  · by_cases hm : measureLine m l.content ≤ width
    · exact Or.inl hm
    · exact Or.inr ⟨hone, Nat.lt_of_not_le hm⟩

/-- Witness for C2 at the scenario wrap, on its first line. -/
theorem claim_C2_witness :
    0 < 7 ∧
      (⟨"Hello ".toList, false⟩ : Line) ∈ rearrangeText 7 unitAdvance "Hello world".toList ∧
      (measureLine unitAdvance ("Hello ".toList) ≤ 7 ∨
        (("Hello ".toList).length = 1 ∧ 7 < measureLine unitAdvance ("Hello ".toList))) :=
  ⟨by decide, by decide,
    claim_C2 "Hello world".toList 7 unitAdvance (by decide) ⟨"Hello ".toList, false⟩ (by decide)⟩

/-! ### Lemmas about the selection resolver: segment concatenation (C9) -/

theorem content_getD (tbl : List Line) (i : Nat) :
    (tbl.map Line.content).getD i [] = (tbl.getD i blankLine).content := by
  by_cases h : i < tbl.length
  · rw [List.getD_eq_getElem _ _ (by simpa using h), List.getD_eq_getElem _ _ h]
    simp
  · rw [List.getD_eq_default _ _ (by simpa using Nat.le_of_not_lt h),
      List.getD_eq_default _ _ (Nat.le_of_not_lt h)]
    rfl

theorem take_drop_concat (L : List Char) (c : Nat) (R : List Char) :
    L.take c ++ (L.drop c ++ R) = L ++ R := by
  rw [← List.append_assoc, List.take_append_drop]

/-- Splitting the flattened table at line `i`: everything above, line `i`,
everything below. -/
theorem flatten_split_at (ctns : List (List Char)) (i : Nat) :
    (ctns.take i).flatten ++ (ctns.getD i [] ++ (ctns.drop (i + 1)).flatten) =
      ctns.flatten := by
  by_cases h : i < ctns.length
  · conv_rhs => rw [← List.take_append_drop i ctns]
    rw [List.flatten_append, List.drop_eq_getElem_cons h, List.flatten_cons,
      List.getD_eq_getElem _ _ h]
  · rw [List.take_of_length_le (Nat.le_of_not_lt h),
      List.getD_eq_default _ _ (Nat.le_of_not_lt h),
      List.drop_eq_nil_of_le (by omega)]
    simp

theorem flatten_split_concat (ctns : List (List Char)) (i : Nat) (R : List Char) :
    (ctns.take i).flatten ++
        (ctns.getD i [] ++ ((ctns.drop (i + 1)).flatten ++ R)) =
      ctns.flatten ++ R := by
  rw [← flatten_split_at ctns i]
  simp [List.append_assoc]

theorem getD_take (l : List (List Char)) (i j : Nat) (hij : i < j) :
    (l.take j).getD i [] = l.getD i [] := by
  by_cases h2 : i < l.length
  · have hlt : i < (l.take j).length := by
      rw [List.length_take]
      omega
    rw [List.getD_eq_getElem _ _ hlt, List.getD_eq_getElem _ _ h2]
    exact List.getElem_take l
  · rw [List.getD_eq_default _ _ (by rw [List.length_take]; omega),
      List.getD_eq_default _ _ (Nat.le_of_not_lt h2)]

/-- The five segments of a normalised selection concatenate, in line order, to
the full wrapped text. -/
theorem segmentsOf_concat (tbl : List Line) (mn mx : CaretPos)
    (hle : docLe mn mx) :
    segmentsConcat (segmentsOf tbl mn mx) = fullWrappedText tbl := by
  by_cases hij : mn.lineIndex = mx.lineIndex
  · have hc12 : mn.columnIndex ≤ mx.columnIndex := by
      unfold docLe at hle
      omega
    simp only [segmentsOf, if_pos hij, segmentsConcat, fullWrappedText,
      lineContentAt]
    rw [← hij]
    simp only [List.map_take, List.map_drop, ← content_getD,
      List.append_assoc, List.nil_append, List.append_nil]
    have htt :
        List.take mn.columnIndex ((tbl.map Line.content).getD mn.lineIndex []) =
          List.take mn.columnIndex
            (List.take mx.columnIndex
              ((tbl.map Line.content).getD mn.lineIndex [])) := by
      rw [List.take_take, Nat.min_eq_left hc12]
    rw [htt, take_drop_concat, take_drop_concat, flatten_split_at]
  · have hlt : mn.lineIndex < mx.lineIndex := by
      unfold docLe at hle
      omega
    simp only [segmentsOf, if_neg hij, segmentsConcat, fullWrappedText,
      lineContentAt]
    simp only [List.map_take, List.map_drop, ← content_getD,
      List.append_assoc, List.nil_append, List.append_nil]
    rw [take_drop_concat, take_drop_concat]
    have h2 : (tbl.map Line.content).take mn.lineIndex =
        ((tbl.map Line.content).take mx.lineIndex).take mn.lineIndex := by
      rw [List.take_take, Nat.min_eq_left (Nat.le_of_lt hlt)]
    have h3 : (tbl.map Line.content).getD mn.lineIndex [] =
        ((tbl.map Line.content).take mx.lineIndex).getD mn.lineIndex [] :=
      (getD_take _ _ _ hlt).symm
    rw [h2, h3, flatten_split_concat, flatten_split_at]

/-- C9: for every LineTable and every pair of valid selection endpoints, the
five render segments concatenate, in line order, to the full wrapped text —
no gaps and no overlaps. -/
theorem claim_C9 (tbl : List Line) (a b : CaretPos)
    (ha : ValidPos tbl a) (hb : ValidPos tbl b) :
    segmentsConcat (updateSelectionTexts tbl a b) = fullWrappedText tbl := by
  unfold updateSelectionTexts
  exact segmentsOf_concat tbl _ _ (docLe_selMinOf_selMaxOf a b)

/-- Witness for C9 on a concrete two-line table with a cross-line selection. -/
theorem claim_C9_witness :
    ValidPos [⟨"Hello ".toList, false⟩, ⟨"world".toList, false⟩] ⟨0, 2⟩ ∧
      ValidPos [⟨"Hello ".toList, false⟩, ⟨"world".toList, false⟩] ⟨1, 3⟩ ∧
      segmentsConcat
          (updateSelectionTexts [⟨"Hello ".toList, false⟩, ⟨"world".toList, false⟩]
            ⟨0, 2⟩ ⟨1, 3⟩) =
        fullWrappedText [⟨"Hello ".toList, false⟩, ⟨"world".toList, false⟩] :=
  ⟨⟨by decide, by decide⟩, ⟨by decide, by decide⟩,
    claim_C9 _ ⟨0, 2⟩ ⟨1, 3⟩ ⟨by decide, by decide⟩ ⟨by decide, by decide⟩⟩

/-! ### Round trip between caret positions and buffer offsets (C6) -/

/-- Core round-trip fact: converting a valid position to a buffer offset and
back recovers the position, unless the position sits at column 0 of a line
`li > 0` and is reachable through ends of earlier soft-wrapped lines denoting
the same offset.  The stated side condition (nonzero column, or first line, or
a hard break on the preceding line) rules out exactly the ambiguous case. -/
theorem caretFromOffset_roundtrip :
    ∀ (tbl : List Line) (li col : Nat),
      li < tbl.length →
      col ≤ (tbl.getD li blankLine).content.length →
      (col ≠ 0 ∨ li = 0 ∨ (tbl.getD (li - 1) blankLine).hardBreak = true) →
      caretFromOffset tbl (((tbl.take li).map lineStep).sum + col) = ⟨li, col⟩ := by
  intro tbl
  induction tbl with
  | nil =>
    intro li col h1 h2 h3
    simp at h1
  | cons l rest ih =>
    intro li col h1 h2 h3
    cases li with
    | zero =>
      have hcol : col ≤ l.content.length := by simpa using h2
      simp only [List.take_zero, List.map_nil, List.sum_nil, Nat.zero_add]
      simp only [caretFromOffset]
      rw [if_pos (Or.inl hcol)]
      simp [Nat.min_eq_left hcol]
    | succ k =>
      have hkrest : k < rest.length := by simpa using h1
      have hrest : rest ≠ [] := by
        intro hnil
        rw [hnil] at hkrest
        simp at hkrest
      simp only [Nat.add_sub_cancel] at h3
      have hpos : 0 < (if l.hardBreak then 1 else 0) +
          (((rest.take k).map lineStep).sum + col) := by
        rcases h3 with hc | hk | hh
        · omega
        · omega
        · cases k with
          | zero =>
            rw [List.getD_cons_zero] at hh
            simp [hh]
          | succ k' =>
            simp only [List.getD_cons_succ] at hh
            have hk2 : k' < rest.length := by omega
            have hgd : rest.getD k' blankLine = rest[k'] :=
              List.getD_eq_getElem rest blankLine hk2
            rw [hgd] at hh
            have hlt2 : k' < (rest.take (k' + 1)).length := by
              rw [List.length_take]
              omega
            have htk : (rest.take (k' + 1))[k'] = rest[k'] :=
              List.getElem_take rest
            have hmem : rest[k'] ∈ rest.take (k' + 1) := by
              rw [← htk]
              exact List.getElem_mem hlt2
            have hmem2 : lineStep rest[k'] ∈ (rest.take (k' + 1)).map lineStep :=
              List.mem_map_of_mem lineStep hmem
            have hsum : lineStep rest[k'] ≤
                ((rest.take (k' + 1)).map lineStep).sum :=
              List.single_le_sum (fun x _ => Nat.zero_le x) _ hmem2
            have hstep : 1 ≤ lineStep rest[k'] := by
              simp [lineStep, hh]
            omega
      simp only [List.take_succ_cons, List.map_cons, List.sum_cons]
      simp only [caretFromOffset]
      split
      · rename_i hcond
        exfalso
        rcases hcond with hle2 | hnil
        · simp only [lineStep] at hle2
          omega
        · exact hrest hnil
      · have h2' : col ≤ (rest.getD k blankLine).content.length := by
          simpa using h2
        have h3' : col ≠ 0 ∨ k = 0 ∨
            (rest.getD (k - 1) blankLine).hardBreak = true := by
          rcases h3 with hc | hk | hh
          · exact Or.inl hc
          · omega
          · cases k with
            | zero => exact Or.inr (Or.inl rfl)
            | succ k' =>
              simp only [List.getD_cons_succ] at hh
              simp only [Nat.add_sub_cancel]
              exact Or.inr (Or.inr hh)
        have hrec := ih k col hkrest h2' h3'
        rw [Nat.add_assoc, Nat.add_sub_cancel_left, hrec]

/-- C6 (amended): the position returned by the caret locator, converted to a
buffer offset and back against the same LineTable, is recovered exactly —
provided it is not at column 0 of a line whose predecessor ends in a soft
(inserted) break, the one case in which the offset is shared with the end of
the preceding line. -/
theorem claim_C6 (m : Char → Nat) (lineHeight : Nat) (tbl : List Line)
    (x y : Int) (hne : tbl ≠ [])
    (hcond : (findCaretPosition m lineHeight tbl x y).columnIndex ≠ 0 ∨
      (findCaretPosition m lineHeight tbl x y).lineIndex = 0 ∨
      (tbl.getD ((findCaretPosition m lineHeight tbl x y).lineIndex - 1)
          blankLine).hardBreak = true) :
    caretFromOffset tbl
        (findTextCaretPosition tbl (findCaretPosition m lineHeight tbl x y)) =
      findCaretPosition m lineHeight tbl x y := by
  obtain ⟨h1, h2⟩ := findCaretPosition_valid m lineHeight tbl x y hne
  have h := caretFromOffset_roundtrip tbl
    (findCaretPosition m lineHeight tbl x y).lineIndex
    (findCaretPosition m lineHeight tbl x y).columnIndex h1 h2 hcond
  simpa [findTextCaretPosition] using h

/-- Witness for C6 at a table whose first line ends in a hard newline:
the caret (1, 0) returned for the point (0, 25) survives the round trip. -/
theorem claim_C6_witness :
    rearrangeText 9 unitAdvance "ab\ncd".toList ≠ [] ∧
      ((rearrangeText 9 unitAdvance "ab\ncd".toList).getD
          ((findCaretPosition unitAdvance 20
              (rearrangeText 9 unitAdvance "ab\ncd".toList) 0 25).lineIndex - 1)
          blankLine).hardBreak = true ∧
      caretFromOffset (rearrangeText 9 unitAdvance "ab\ncd".toList)
          (findTextCaretPosition (rearrangeText 9 unitAdvance "ab\ncd".toList)
            (findCaretPosition unitAdvance 20
              (rearrangeText 9 unitAdvance "ab\ncd".toList) 0 25)) =
        findCaretPosition unitAdvance 20
          (rearrangeText 9 unitAdvance "ab\ncd".toList) 0 25 :=
  ⟨by decide, by decide,
    claim_C6 unitAdvance 20 _ 0 25 (by decide) (Or.inr (Or.inr (by decide)))⟩

/-- Counterexample to C6 as stated: on the wrap of "Hello world" at width 7
(lines "Hello " and "world", soft break between them) the locator returns
(1, 0) for the point (0, 25); its buffer offset, 6, converts back to (0, 6) —
the end of the previous line — not to (1, 0). -/
theorem claim_C6_counterexample :
    findCaretPosition unitAdvance 20
        (rearrangeText 7 unitAdvance "Hello world".toList) 0 25 = ⟨1, 0⟩ ∧
      caretFromOffset (rearrangeText 7 unitAdvance "Hello world".toList)
          (findTextCaretPosition (rearrangeText 7 unitAdvance "Hello world".toList)
            ⟨1, 0⟩) = ⟨0, 6⟩ ∧
      caretFromOffset (rearrangeText 7 unitAdvance "Hello world".toList)
          (findTextCaretPosition (rearrangeText 7 unitAdvance "Hello world".toList)
            (findCaretPosition unitAdvance 20
              (rearrangeText 7 unitAdvance "Hello world".toList) 0 25)) ≠
        findCaretPosition unitAdvance 20
          (rearrangeText 7 unitAdvance "Hello world".toList) 0 25 :=
  ⟨by decide, by decide, by decide⟩

end TGUI
